import Mathlib

/-!
Verification of the `some-watcher` file-organization tool.

The development shallowly embeds the path manipulation, rule construction
and move-executor logic of `src/ruleset.rs`, `src/watcher.rs` and
`src/lib.rs`.  Strings are modelled as `List Char`; a filesystem path is a
list of components (for absolute Windows paths the `c:\` prefix and root
are implicit and not poppable, matching `PathBuf::pop` returning `false`
once only the prefix and root remain).  The filesystem itself is modelled
as the list of existing paths (file/directory distinction abstracted away);
the root (empty component list) always exists.
-/

namespace SomeWatcher

abbrev Str := List Char

/-- A filesystem path: the list of components after the (implicit) prefix
and root directory.  Mirrors `std::path::PathBuf` for absolute Windows
paths as used throughout the source. -/
structure FsPath where
  comps : List Str
deriving DecidableEq

/-- `PathBuf::file_name`: the last component, if any. -/
def FsPath.fileName (p : FsPath) : Option Str :=
  p.comps.getLast?

/-- `PathBuf::push` of one relative fragment (the fragment is stored
wholesale, as `PathBuf::push` does; pushing an empty fragment adds no
component). -/
def FsPath.pushC (p : FsPath) (c : Str) : FsPath :=
  if c.isEmpty then p else ⟨p.comps ++ [c]⟩

/-- `PathBuf::pop` applied unconditionally: drop the last component; a
path with no components (the filesystem root) is left unchanged, matching
`pop` returning `false` and doing nothing. -/
def FsPath.popP (p : FsPath) : FsPath :=
  ⟨p.comps.dropLast⟩

/-- Rust `path::split_file_at_dot`: split a file name at its last dot.
Returns the stem and, when the name has a dot that is not its leading
character (and the name is not `".."`), the extension after that dot. -/
def splitAtLastDot (name : Str) : Str × Option Str :=
  if name = ['.', '.'] then (name, none)
  else
    match name.reverse.span (fun c => c ≠ '.') with
    | (_, []) => (name, none)
    | (extRev, _dot :: restRev) =>
      if restRev.isEmpty then (name, none)
      else (restRev.reverse, some extRev.reverse)

/-- `Path::extension`. -/
def FsPath.extension (p : FsPath) : Option Str :=
  p.fileName.bind (fun n => (splitAtLastDot n).2)

/-- `Path::file_stem` (modelled for normal last components). -/
def FsPath.fileStem (p : FsPath) : Option Str :=
  p.fileName.map (fun n => (splitAtLastDot n).1)

/-- `PathBuf::set_extension e`: replace the last component by
`stem` (`e` empty) or `stem ++ "." ++ e`.  A path without a file name is
left unchanged (`set_extension` returns `false` there). -/
def FsPath.setExt (p : FsPath) (e : Str) : FsPath :=
  match p.comps.getLast? with
  | none => p
  | some n =>
    ⟨p.comps.dropLast ++ [(splitAtLastDot n).1 ++ (if e.isEmpty then [] else '.' :: e)]⟩

-- ----------------------------------------------------------------------
-- `ruleset.rs`: the marker-resolution function `strip`
-- ----------------------------------------------------------------------

/-- `str::starts_with` on our character lists. -/
def startsWithS (pat s : Str) : Bool :=
  match pat, s with
  | [], _ => true
  | _ :: _, [] => false
  | a :: ps, b :: ss => a == b && startsWithS ps ss

theorem startsWithS_length {pat s : Str} (h : startsWithS pat s = true) :
    pat.length ≤ s.length := by
  induction pat generalizing s with
  | nil => simp
  | cons a ps ih =>
    cases s with
    | nil => simp [startsWithS] at h
    | cons b ss =>
      simp only [startsWithS, Bool.and_eq_true] at h
      simpa [List.length_cons] using ih h.2

/-- The constant `DIR_UP` (`"..\"`). -/
def dirUp : Str := ['.', '.', '\\']

/-- The constant `DIR_CUR` (`".\"`). -/
def dirCur : Str := ['.', '\\']

/-- `str::trim_start_matches`: repeatedly strip a leading occurrence of
`pat`. -/
def trimStartMatches (pat s : Str) : Str :=
  if h : pat ≠ [] ∧ startsWithS pat s = true then
    trimStartMatches pat (s.drop pat.length)
  else s
termination_by s.length
decreasing_by
  have hlen := startsWithS_length h.2
  have hpos : 0 < pat.length := List.length_pos.mpr h.1
  simp only [List.length_drop]
  omega

theorem trimStartMatches_le_aux (pat : Str) :
    ∀ (n : Nat) (s : Str), s.length ≤ n → (trimStartMatches pat s).length ≤ s.length := by
  intro n
  induction n with
  | zero =>
    intro s hs
    rw [trimStartMatches]
    split
    · rename_i hc
      have h2 := startsWithS_length hc.2
      have h3 : 0 < pat.length := List.length_pos.mpr hc.1
      omega
    · exact Nat.le_refl _
  | succ n ih =>
    intro s hs
    rw [trimStartMatches]
    split
    · rename_i hc
      have h2 := startsWithS_length hc.2
      have h3 : 0 < pat.length := List.length_pos.mpr hc.1
      have h4 := ih (s.drop pat.length) (by simp only [List.length_drop]; omega)
      simp only [List.length_drop] at h4
      omega
    · exact Nat.le_refl _

theorem trimStartMatches_length_le (pat s : Str) :
    (trimStartMatches pat s).length ≤ s.length :=
  trimStartMatches_le_aux pat s.length s (Nat.le_refl _)

/-- `ruleset.rs::strip`: resolve leading `..\` and `.\` markers of `s`
against the path `p`, then append the remainder. -/
def strip (p : FsPath) (s : Str) : FsPath :=
  if h1 : startsWithS dirUp s = true then
    if hp : p.comps ≠ [] then
      strip p.popP (s.drop dirUp.length)
    else
      strip p (trimStartMatches dirUp s)
  else if h2 : startsWithS dirCur s = true then
    strip p (s.drop dirCur.length)
  else
    p.pushC s
termination_by s.length
decreasing_by
  · have h3 : 3 ≤ s.length := by simpa [dirUp] using startsWithS_length h1
    simp only [List.length_drop, dirUp, List.length_cons, List.length_nil]
    omega
  · have h3 : 3 ≤ s.length := by simpa [dirUp] using startsWithS_length h1
    have hne : dirUp ≠ [] := by simp [dirUp]
    rw [trimStartMatches, dif_pos ⟨hne, h1⟩]
    have h4 := trimStartMatches_length_le dirUp (s.drop dirUp.length)
    simp only [List.length_drop, dirUp, List.length_cons, List.length_nil] at h4 ⊢
    omega
  · have h3 : 2 ≤ s.length := by simpa [dirCur] using startsWithS_length h2
    simp only [List.length_drop, dirCur, List.length_cons, List.length_nil]
    omega

example : strip ⟨[['a'], ['b'], ['c']]⟩ ['.', '.', '\\', '.', '.', '\\', 'e', '\\'] =
    ⟨[['a'], ['e', '\\']]⟩ := by
  simp [strip, trimStartMatches, startsWithS, dirUp, dirCur, FsPath.popP, FsPath.pushC]

example : strip ⟨[['a']]⟩ ['.', '.', '\\', '.', '.', '\\', '.', '.', '\\'] =
    ⟨[]⟩ := by
  simp [strip, trimStartMatches, startsWithS, dirUp, dirCur, FsPath.popP, FsPath.pushC]

example : strip ⟨[['a']]⟩ ['.', '\\', 'b', '\\'] = ⟨[['a'], ['b', '\\']]⟩ := by
  simp [strip, trimStartMatches, startsWithS, dirUp, dirCur, FsPath.popP, FsPath.pushC]

-- ----------------------------------------------------------------------
-- `watcher.rs`: queue tasks, the move executor `handle_move_task`
-- ----------------------------------------------------------------------

/-- A Rust panic site reached by the embedded code. -/
inductive RPanic where
  | unwrapFileName
  | unwrapExtension
  | assertFileStem
deriving DecidableEq

/-- `watcher.rs::QueueTask`.  `Ok`/`Err`/`Path` messages that the source
builds from `color_path()` strings are carried as the underlying path or
text. -/
inductive QueueTaskM where
  | move (src dest : FsPath)
  | path (p : FsPath)
  | info (s : Str)
  | okQ (s : Str)
  | errQ (s : Str)
  | noneQ
deriving DecidableEq

/-- `watcher.rs::Msg`: either nothing, or a line with a color code and a
payload (the exact string formatting is presentation and abstracted to the
payload itself). -/
inductive MsgM where
  | noneM
  | textM (code : Nat) (payload : Str)
deriving DecidableEq

/-- Path rendering used for messages (stands in for `color_path()`; the
ANSI color decoration is presentation only). -/
def renderPath (p : FsPath) : Str :=
  (p.comps.intersperse ['\\']).flatten

/-- `QueueTask::print_done`. -/
def printDone : QueueTaskM → MsgM
  | .path p => .textM 33 (renderPath p)
  | .info s => .textM 37 s
  | .okQ s => .textM 32 s
  | .errQ s => .textM 31 s
  | _ => .noneM

/-- The filesystem is the list of existing paths; the root (no
components) always exists. -/
def hasPath (fs : List FsPath) (p : FsPath) : Bool :=
  p.comps.isEmpty || decide (p ∈ fs)

/-- The destination computation of `Watch::handle_move_task` for a
`Move { src, dest }` task: redirect an occupied destination into the dump
folder re-joined with `src`'s file name, then, if still occupied, append
`"." ++ timestamp` to the extension (panicking on
`extension().unwrap()` when the name has no extension).  `try_exists` and
`exists` are both modelled by the `has` predicate. -/
def moveDest (has : FsPath → Bool) (dump src dest : FsPath) (ts : Str) :
    Except RPanic FsPath :=
  let step1 : Except RPanic FsPath :=
    if has dest then
      match src.fileName with
      | none => Except.error RPanic.unwrapFileName
      | some n => Except.ok (dump.pushC n)
    else Except.ok dest
  match step1 with
  | Except.error e => Except.error e
  | Except.ok dest1 =>
    if has dest1 then
      match dest1.extension with
      | none => Except.error RPanic.unwrapExtension
      | some ext => Except.ok (dest1.setExt (ext ++ '.' :: ts))
    else Except.ok dest1

/-- `fs::create_dir`: creates `p` only when its parent exists and `p`
itself does not; otherwise the filesystem is unchanged (the call errors,
and `handle_move_task` ignores the result). -/
def createDir (fs : List FsPath) (p : FsPath) : List FsPath :=
  if hasPath fs p.popP && !hasPath fs p then p :: fs else fs

/-- `fs::rename` state change on success: the source entry is removed and
the destination entry (re)placed (Windows `MoveFileEx` with
`MOVEFILE_REPLACE_EXISTING` overwrites an existing destination). -/
def renameApply (fs : List FsPath) (src d : FsPath) : List FsPath :=
  d :: fs.filter (fun p => p != src && p != d)

/-- `Watch::handle_move_task`: the full executor step on one queue task,
returning the updated filesystem and the printed message.  A rename
succeeds when the source exists and the final destination's parent
exists; on failure the filesystem is unchanged and an `Err` line is
reported. -/
def handleMoveTask (fs : List FsPath) (dump : FsPath) (ts : Str) :
    QueueTaskM → Except RPanic (List FsPath × MsgM)
  | .move src dest =>
    match moveDest (hasPath fs) dump src dest ts with
    | Except.error e => Except.error e
    | Except.ok d =>
      let fs1 := if d.fileStem.isSome then createDir fs d.popP else fs
      if hasPath fs1 src && hasPath fs1 d.popP then
        Except.ok (renameApply fs1 src d, printDone (.okQ (renderPath d)))
      else
        Except.ok (fs1, printDone (.errQ (renderPath src)))
  | q => Except.ok (fs, printDone q)

-- ----------------------------------------------------------------------
-- `ruleset.rs`: `Task::parse`
-- ----------------------------------------------------------------------

/-- `ruleset.rs::Resolved`, the resolver verdict. -/
inductive ResolvedM where
  | moveR (dest : FsPath)
  | pathR (p : FsPath)
  | infoR (s : Str)
  | okR (s : Str)
  | errR (s : Str)
  | contR
  | noneR

/-- The fields of `ruleset.rs::Task` that `parse` consults.  The regex
match is abstracted to a boolean predicate on the source path, the bound
`Module` to a resolver function. -/
structure TaskM where
  matchPattern : Option (FsPath → Bool)
  resolver : Option (FsPath → FsPath → ResolvedM)

/-- The `"part"` extension suppressed on Windows. -/
def partStr : Str := ['p', 'a', 'r', 't']

/-- The tail of `Task::parse`: the self-move comparison
(`src.cmp(&dest) == Ordering::Equal`, which for paths of normal
components coincides with equality), the `file_stem` assertion, and the
`Move` construction. -/
def finishMove (src d : FsPath) : Except RPanic QueueTaskM :=
  if src = d then Except.ok QueueTaskM.noneQ
  else if d.fileStem.isSome then Except.ok (QueueTaskM.move src d)
  else Except.error RPanic.assertFileStem

/-- `Task::parse`: build the queue task for a matched event.  `has` gives
`src.exists()`, `windows` the `cfg!(target_os = "windows")` flag. -/
def TaskM.parse (t : TaskM) (has : FsPath → Bool) (windows : Bool)
    (src dest0 : FsPath) : Except RPanic QueueTaskM :=
  if !has src || (windows && src.extension == some partStr) then
    Except.ok QueueTaskM.noneQ
  else if (match t.matchPattern with
           | some re => !re src
           | none => false) then
    Except.ok QueueTaskM.noneQ
  else
    match src.fileName with
    | none => Except.error RPanic.unwrapFileName
    | some n =>
      let dest := dest0.pushC n
      let afterResolver : QueueTaskM ⊕ FsPath :=
        match t.resolver with
        | none => Sum.inr dest
        | some f =>
          match f src dest with
          | .moveR d => Sum.inr d
          | .contR => Sum.inr dest
          | .pathR p => Sum.inl (QueueTaskM.path p)
          | .infoR s => Sum.inl (QueueTaskM.info s)
          | .okR s => Sum.inl (QueueTaskM.okQ s)
          | .errR s => Sum.inl (QueueTaskM.errQ s)
          | .noneR => Sum.inl QueueTaskM.noneQ
      match afterResolver with
      | Sum.inl q => Except.ok q
      | Sum.inr d => finishMove src d

-- ----------------------------------------------------------------------
-- `ruleset.rs`: `Ruleset::add`
-- ----------------------------------------------------------------------

/-- The configuration-relevant fields of a `Task` as seen by
`Ruleset::add`: its optional label, whether an event predicate was set,
and the optional raw destination string. -/
structure TaskC where
  label : Option Str
  eventCheckSet : Bool
  destination : Option Str

/-- Outcome of `Ruleset::add` for one task.  The three panic outcomes are
the `panic!` for a missing event predicate, the `label.unwrap()` inside
that panic message, and the `unimplemented!()` of the non-Windows
destination branch. -/
inductive AddOutcome where
  | panicMissingEvent
  | panicLabelUnwrap
  | panicUnimplemented
  | added (dest : FsPath)
deriving DecidableEq

/-- `Ruleset::add`: reject a task without an event predicate, then
resolve the destination: a set destination is normalized with `strip`
against the watched path on Windows and hits `unimplemented!()`
elsewhere; an unset destination inherits the watched path. -/
def rulesetAdd (targetWindows : Bool) (watchedPath : FsPath) (t : TaskC) :
    AddOutcome :=
  if t.eventCheckSet = false then
    match t.label with
    | none => AddOutcome.panicLabelUnwrap
    | some _ => AddOutcome.panicMissingEvent
  else
    match t.destination with
    | some d =>
      if targetWindows then AddOutcome.added (strip watchedPath d)
      else AddOutcome.panicUnimplemented
    | none => AddOutcome.added watchedPath

-- ----------------------------------------------------------------------
-- `watcher.rs`: `Watch::new` dump-folder handling
-- ----------------------------------------------------------------------

/-- Result of `Path::try_exists`: `Ok(true)`, `Ok(false)` (the path
verifiably does not exist), or `Err` (existence could not be
determined). -/
inductive TryExistsResult where
  | okTrue
  | okFalse
  | errE
deriving DecidableEq

/-- Whether `Watch::new` invokes `create_dir_all` on the dump folder:
the source guards the call with `dump_folder.try_exists().is_err()`. -/
def watchNewCreatesDump : TryExistsResult → Bool
  | .errE => true
  | _ => false

/-- Whether the dump folder exists after `Watch::new` returns, as a
function of its `try_exists` status at construction time (when
`create_dir_all` runs and succeeds the folder exists afterwards). -/
def dumpExistsAfterNew (r : TryExistsResult) : Bool :=
  match r with
  | .okTrue => true
  | .okFalse => watchNewCreatesDump .okFalse
  | .errE => watchNewCreatesDump .errE

-- ----------------------------------------------------------------------
-- `watcher.rs`: `Watch::start` error handling
-- ----------------------------------------------------------------------

/-- Outcome of one watcher thread's `watch_one` setup: the debouncer
attached and the ready flag was set, or `watch_one` returned
`PathNotFound`, or it returned some other error. -/
inductive SetupOutcome where
  | ready
  | failPathNotFound
  | failOther
deriving DecidableEq

/-- What the watcher thread closure in `Watch::start` does with the
result of `watch_one`: every error is only printed. -/
inductive ThreadReaction where
  | runsEventLoop
  | logsNotFound
  | logsError
deriving DecidableEq

/-- The `match error.kind` in the watcher thread closure of
`Watch::start`. -/
def threadReaction : SetupOutcome → ThreadReaction
  | .ready => .runsEventLoop
  | .failPathNotFound => .logsNotFound
  | .failOther => .logsError

/-- The ready flag of a watcher thread is set only after `watch_one`
attached its debouncer successfully. -/
def readyFlagSet : SetupOutcome → Bool
  | .ready => true
  | _ => false

/-- The polling loop in `Watch::start` breaks only once every watcher
thread set its ready flag. -/
def readyLoopBreaks (outcomes : List SetupOutcome) : Bool :=
  outcomes.all readyFlagSet

/-- The value `Watch::start` returns, as a function of the per-root setup
outcomes: `none` models not returning (the ready-flag loop never breaks,
or the scope blocks); when it returns, the only value in the source is
`Ok(())`. -/
def startReturn (outcomes : List SetupOutcome) : Option (Except SetupOutcome Unit) :=
  if readyLoopBreaks outcomes then some (Except.ok ()) else none

-- ----------------------------------------------------------------------
-- `watcher.rs`: the recent-event `Buffer`
-- ----------------------------------------------------------------------

/-- `Buffer::get_with_key`: find the first entry with the given key,
remove it, and return its value together with the remaining buffer. -/
def getWithKey {K V : Type} [DecidableEq K] :
    List (K × V) → K → Option V × List (K × V)
  | [], _ => (none, [])
  | (k, v) :: rest, needle =>
    if k = needle then (some v, rest)
    else
      let r := getWithKey rest needle
      (r.1, (k, v) :: r.2)

/-- `Buffer::push` with the capacity bound: when the buffer is full the
oldest entry (index 0) is removed before appending. -/
def bufferPush {T : Type} (capacity : Nat) (buf : List T) (item : T) : List T :=
  if buf.length = capacity then buf.drop 1 ++ [item] else buf ++ [item]

-- ----------------------------------------------------------------------
-- Marker sequences for the `strip` specification
-- ----------------------------------------------------------------------

/-- One marker: `true` is the parent marker `..\`, `false` the
current-directory marker `.\`. -/
def markerStr (b : Bool) : Str :=
  if b then dirUp else dirCur

/-- Concatenation of a marker sequence. -/
def joinM : List Bool → Str
  | [] => []
  | b :: l => markerStr b ++ joinM l

/-- The effect one marker has on the root path according to the claim:
a parent marker pops one component (the filesystem root is left in
place), a current marker changes nothing. -/
def applyMarker (p : FsPath) (b : Bool) : FsPath :=
  if b then p.popP else p

theorem startsWithS_up_up (t : Str) :
    startsWithS dirUp ('.' :: '.' :: '\\' :: t) = true := rfl

theorem startsWithS_up_cur (t : Str) :
    startsWithS dirUp ('.' :: '\\' :: t) = false := rfl

theorem startsWithS_cur_cur (t : Str) :
    startsWithS dirCur ('.' :: '\\' :: t) = true := rfl

theorem startsWithS_cur_up (t : Str) :
    startsWithS dirCur ('.' :: '.' :: '\\' :: t) = false := rfl

theorem joinM_cons_true (l : List Bool) (rest : Str) :
    joinM (true :: l) ++ rest = '.' :: '.' :: '\\' :: (joinM l ++ rest) := by
  simp [joinM, markerStr, dirUp]

theorem joinM_cons_false (l : List Bool) (rest : Str) :
    joinM (false :: l) ++ rest = '.' :: '\\' :: (joinM l ++ rest) := by
  simp [joinM, markerStr, dirCur]

theorem trimStartMatches_joinM (ms : List Bool) (rest : Str)
    (h1 : startsWithS dirUp rest = false) :
    trimStartMatches dirUp (joinM ms ++ rest) = joinM (ms.dropWhile id) ++ rest := by
  induction ms with
  | nil =>
    rw [trimStartMatches]
    have : ¬(dirUp ≠ [] ∧ startsWithS dirUp (joinM [] ++ rest) = true) := by
      simp [joinM, h1]
    rw [dif_neg this]
    simp [joinM]
  | cons b l ih =>
    cases b with
    | true =>
      rw [joinM_cons_true, trimStartMatches]
      have hc : dirUp ≠ [] ∧
          startsWithS dirUp ('.' :: '.' :: '\\' :: (joinM l ++ rest)) = true := by
        exact ⟨by simp [dirUp], startsWithS_up_up _⟩
      rw [dif_pos hc]
      have hdrop : ('.' :: '.' :: '\\' :: (joinM l ++ rest)).drop dirUp.length =
          joinM l ++ rest := by simp [dirUp]
      rw [hdrop, ih]
      simp [List.dropWhile]
    | false =>
      rw [joinM_cons_false, trimStartMatches]
      have : ¬(dirUp ≠ [] ∧
          startsWithS dirUp ('.' :: '\\' :: (joinM l ++ rest)) = true) := by
        simp [startsWithS_up_cur]
      rw [dif_neg this]
      simp [List.dropWhile, joinM_cons_false]

theorem strip_no_marker (p : FsPath) (rest : Str)
    (h1 : startsWithS dirUp rest = false) (h2 : startsWithS dirCur rest = false) :
    strip p rest = p.pushC rest := by
  rw [strip]
  rw [dif_neg (by simp [h1]), dif_neg (by simp [h2])]

theorem dropWhile_len_le {α : Type} (f : α → Bool) (l : List α) :
    (List.dropWhile f l).length ≤ l.length := by
  induction l with
  | nil => simp [List.dropWhile]
  | cons a l ih =>
    simp only [List.dropWhile]
    split
    · exact Nat.le_trans ih (Nat.le_succ _)
    · exact Nat.le_refl _

theorem strip_root_aux : ∀ (n : Nat) (ms : List Bool), ms.length ≤ n →
    ∀ (rest : Str), startsWithS dirUp rest = false → startsWithS dirCur rest = false →
    strip ⟨[]⟩ (joinM ms ++ rest) = FsPath.pushC ⟨[]⟩ rest := by
  intro n
  induction n with
  | zero =>
    intro ms hms rest h1 h2
    have : ms = [] := List.length_eq_zero.mp (Nat.le_zero.mp hms)
    subst this
    simpa [joinM] using strip_no_marker ⟨[]⟩ rest h1 h2
  | succ n ih =>
    intro ms hms rest h1 h2
    cases ms with
    | nil => simpa [joinM] using strip_no_marker ⟨[]⟩ rest h1 h2
    | cons b l =>
      cases b with
      | true =>
        rw [joinM_cons_true, strip]
        rw [dif_pos (startsWithS_up_up _)]
        rw [dif_neg (by simp)]
        rw [← joinM_cons_true, trimStartMatches_joinM (true :: l) rest h1]
        have hlen : (List.dropWhile id (true :: l)).length ≤ n := by
          have h3 : List.dropWhile id (true :: l) = List.dropWhile id l := by
            simp [List.dropWhile]
          rw [h3]
          have := dropWhile_len_le id l
          simp at hms
          omega
        exact ih _ hlen rest h1 h2
      | false =>
        rw [joinM_cons_false, strip]
        rw [dif_neg (by simp [startsWithS_up_cur])]
        rw [dif_pos (startsWithS_cur_cur _)]
        have hdrop : ('.' :: '\\' :: (joinM l ++ rest)).drop dirCur.length =
            joinM l ++ rest := by simp [dirCur]
        rw [hdrop]
        exact ih l (by simp at hms; omega) rest h1 h2

theorem foldl_applyMarker_root (ms : List Bool) :
    List.foldl applyMarker ⟨[]⟩ ms = (⟨[]⟩ : FsPath) := by
  induction ms with
  | nil => rfl
  | cons b l ih =>
    have : applyMarker ⟨[]⟩ b = (⟨[]⟩ : FsPath) := by
      cases b <;> simp [applyMarker, FsPath.popP]
    simp [List.foldl, this, ih]

theorem strip_markers (ms : List Bool) : ∀ (p : FsPath) (rest : Str),
    startsWithS dirUp rest = false → startsWithS dirCur rest = false →
    strip p (joinM ms ++ rest) = (List.foldl applyMarker p ms).pushC rest := by
  induction ms with
  | nil =>
    intro p rest h1 h2
    simpa [joinM] using strip_no_marker p rest h1 h2
  | cons b l ih =>
    intro p rest h1 h2
    cases b with
    | true =>
      rw [joinM_cons_true, strip, dif_pos (startsWithS_up_up _)]
      by_cases hp : p.comps = []
      · rw [dif_neg (by simp [hp])]
        obtain ⟨cs⟩ := p
        simp only at hp
        subst hp
        rw [← joinM_cons_true, trimStartMatches_joinM (true :: l) rest h1]
        have h3 := strip_root_aux (List.dropWhile id (true :: l)).length _
          (Nat.le_refl _) rest h1 h2
        rw [h3]
        have h4 : List.foldl applyMarker (⟨[]⟩ : FsPath) (true :: l) = ⟨[]⟩ :=
          foldl_applyMarker_root _
        rw [h4]
      · rw [dif_pos hp]
        have hdrop : ('.' :: '.' :: '\\' :: (joinM l ++ rest)).drop dirUp.length =
            joinM l ++ rest := by simp [dirUp]
        rw [hdrop, ih p.popP rest h1 h2]
        simp [List.foldl, applyMarker]
    | false =>
      rw [joinM_cons_false, strip, dif_neg (by simp [startsWithS_up_cur]),
        dif_pos (startsWithS_cur_cur _)]
      have hdrop : ('.' :: '\\' :: (joinM l ++ rest)).drop dirCur.length =
          joinM l ++ rest := by simp [dirCur]
      rw [hdrop, ih p rest h1 h2]
      simp [List.foldl, applyMarker]

theorem foldl_applyMarker_clamp (ms : List Bool) : ∀ (p : FsPath),
    p.comps.length ≤ List.countP id ms →
    List.foldl applyMarker p ms = (⟨[]⟩ : FsPath) := by
  induction ms with
  | nil =>
    intro p hp
    simp [List.countP] at hp
    obtain ⟨cs⟩ := p
    simp only [List.foldl]
    congr 1
    exact List.length_eq_zero.mp (Nat.le_zero.mp hp)
  | cons b l ih =>
    intro p hp
    cases b with
    | true =>
      simp only [List.foldl]
      apply ih
      have hcount : List.countP id (true :: l) = List.countP id l + 1 := by
        simp [List.countP_cons]
      have hlen : (applyMarker p true).comps.length = p.comps.length - 1 := by
        simp [applyMarker, FsPath.popP]
      rw [hcount] at hp
      omega
    | false =>
      simp only [List.foldl]
      apply ih
      have hcount : List.countP id (false :: l) = List.countP id l := by
        simp [List.countP_cons]
      have hlen : (applyMarker p false).comps.length = p.comps.length := by
        simp [applyMarker]
      omega

-- ----------------------------------------------------------------------
-- Claim C2
-- ----------------------------------------------------------------------

/-- Claim C2: for every root path and every relative spec built from
parent markers and current-directory markers followed by a marker-free
remainder, `strip` pops one component per parent marker (clamping at the
filesystem root) and leaves the path unchanged per current marker; in
particular `strip root (dirUp ++ dirUp ++ x)` is `pop (pop root) + x`,
`strip root (dirCur ++ b)` is `root + b`, and when the spec holds at
least as many parent markers as the root has components the result is
the filesystem root joined with the remainder, never a path above the
root. -/
theorem strip_marker_resolution (p : FsPath) (ms : List Bool) (rest : Str)
    (h1 : startsWithS dirUp rest = false) (h2 : startsWithS dirCur rest = false) :
    strip p (joinM ms ++ rest) = (List.foldl applyMarker p ms).pushC rest ∧
    strip p (dirUp ++ dirUp ++ rest) = (p.popP.popP).pushC rest ∧
    strip p (dirCur ++ rest) = p.pushC rest ∧
    (p.comps.length ≤ List.countP id ms →
      strip p (joinM ms ++ rest) = FsPath.pushC ⟨[]⟩ rest) := by
  refine ⟨strip_markers ms p rest h1 h2, ?_, ?_, ?_⟩
  · have h3 := strip_markers [true, true] p rest h1 h2
    have h4 : joinM [true, true] ++ rest = dirUp ++ dirUp ++ rest := by
      simp [joinM, markerStr]
    have h5 : List.foldl applyMarker p [true, true] = p.popP.popP := by
      simp [List.foldl, applyMarker]
    rw [h4, h5] at h3
    exact h3
  · have h3 := strip_markers [false] p rest h1 h2
    have h4 : joinM [false] ++ rest = dirCur ++ rest := by
      simp [joinM, markerStr]
    have h5 : List.foldl applyMarker p [false] = p := by
      simp [List.foldl, applyMarker]
    rw [h4, h5] at h3
    exact h3
  · intro hle
    rw [strip_markers ms p rest h1 h2, foldl_applyMarker_clamp ms p hle]

/-- Concrete instantiation of `strip_marker_resolution`: the root
`c:\a\b\c\` with spec `..\..\e\`. -/
theorem strip_marker_resolution_witness :
    strip ⟨[['a'], ['b'], ['c']]⟩ (joinM [true, true] ++ ['e', '\\']) =
      (List.foldl applyMarker ⟨[['a'], ['b'], ['c']]⟩ [true, true]).pushC ['e', '\\'] ∧
    strip ⟨[['a'], ['b'], ['c']]⟩ (dirUp ++ dirUp ++ ['e', '\\']) =
      ((⟨[['a'], ['b'], ['c']]⟩ : FsPath).popP.popP).pushC ['e', '\\'] ∧
    strip ⟨[['a'], ['b'], ['c']]⟩ (dirCur ++ ['e', '\\']) =
      (⟨[['a'], ['b'], ['c']]⟩ : FsPath).pushC ['e', '\\'] ∧
    ((⟨[['a'], ['b'], ['c']]⟩ : FsPath).comps.length ≤ List.countP id [true, true] →
      strip ⟨[['a'], ['b'], ['c']]⟩ (joinM [true, true] ++ ['e', '\\']) =
        FsPath.pushC ⟨[]⟩ ['e', '\\']) :=
  strip_marker_resolution ⟨[['a'], ['b'], ['c']]⟩ [true, true] ['e', '\\']
    (by decide) (by decide)

-- ----------------------------------------------------------------------
-- File-name reconstruction lemmas for the move executor
-- ----------------------------------------------------------------------

theorem dropWhile_head_false {α : Type} (f : α → Bool) :
    ∀ {l : List α} {c : α} {r : List α}, List.dropWhile f l = c :: r → f c = false := by
  intro l
  induction l with
  | nil => intro c r h; simp [List.dropWhile] at h
  | cons a l ih =>
    intro c r h
    rw [List.dropWhile_cons] at h
    split at h
    · exact ih h
    · cases h
      rename_i hfa
      simpa using hfa

theorem splitAtLastDot_some {name stem ext : Str}
    (h : splitAtLastDot name = (stem, some ext)) :
    name = stem ++ '.' :: ext := by
  unfold splitAtLastDot at h
  split at h
  · simp at h
  · split at h
    · simp at h
    · rename_i extRev c restRev heq
      split at h
      · simp at h
      · rename_i hrne
        have hstem : restRev.reverse = stem := by
          have := congrArg Prod.fst h
          simpa using this
        have hext : extRev.reverse = ext := by
          have := congrArg Prod.snd h
          simpa using this
        rw [List.span_eq_take_drop] at heq
        have htw : List.takeWhile (fun c => decide (c ≠ '.')) name.reverse = extRev := by
          have := congrArg Prod.fst heq
          simpa using this
        have hdw : List.dropWhile (fun c => decide (c ≠ '.')) name.reverse = c :: restRev := by
          have := congrArg Prod.snd heq
          simpa using this
        have hc : c = '.' := by
          have := dropWhile_head_false _ hdw
          simpa using this
        rw [hc] at hdw
        have hrev : name.reverse = extRev ++ '.' :: restRev := by
          rw [← htw, ← hdw]
          exact (List.takeWhile_append_dropWhile _ _).symm
        have hname : name = restRev.reverse ++ '.' :: extRev.reverse := by
          have := congrArg List.reverse hrev
          simpa [List.reverse_append] using this
        rw [hname, hstem, hext]

theorem extension_reconstruct {p : FsPath} {ext : Str} (h : p.extension = some ext) :
    ∃ n, p.fileName = some n ∧ n = (splitAtLastDot n).1 ++ '.' :: ext := by
  unfold FsPath.extension at h
  cases hn : p.fileName with
  | none => rw [hn] at h; simp at h
  | some n =>
    rw [hn] at h
    have h2 : (splitAtLastDot n).2 = some ext := h
    refine ⟨n, rfl, ?_⟩
    have hsp : splitAtLastDot n = ((splitAtLastDot n).1, some ext) := by
      cases hx : splitAtLastDot n
      rw [hx] at h2
      simp_all
    exact splitAtLastDot_some hsp

theorem pushC_fileName (p : FsPath) (n : Str) (hn : n ≠ []) :
    (p.pushC n).fileName = some n := by
  unfold FsPath.pushC
  rw [if_neg (by simpa using hn)]
  unfold FsPath.fileName
  exact List.getLast?_concat _

theorem setExt_fileName {p : FsPath} {n : Str} (hn : p.fileName = some n)
    (e : Str) (he : e.isEmpty = false) :
    (p.setExt e).fileName = some ((splitAtLastDot n).1 ++ '.' :: e) := by
  unfold FsPath.fileName at hn
  unfold FsPath.setExt
  rw [hn]
  unfold FsPath.fileName
  simp only [he]
  simpa using List.getLast?_concat (p.comps.dropLast)

theorem setExt_ts_fileName {p : FsPath} {ext : Str} (h : p.extension = some ext)
    (ts : Str) :
    ∃ n m, p.fileName = some n ∧ (p.setExt (ext ++ '.' :: ts)).fileName = some m ∧
      m.length = n.length + ts.length + 1 := by
  obtain ⟨n, hn, hrec⟩ := extension_reconstruct h
  have he : (ext ++ '.' :: ts).isEmpty = false := by
    cases ext <;> simp [List.isEmpty]
  have hm := setExt_fileName hn _ he
  refine ⟨n, _, hn, hm, ?_⟩
  conv_rhs => rw [hrec]
  simp [List.length_append]
  omega

theorem hasPath_createDir {fs : List FsPath} {p : FsPath} (q : FsPath)
    (h : hasPath fs p = true) : hasPath (createDir fs q) p = true := by
  unfold createDir
  split
  · unfold hasPath at h ⊢
    rcases Bool.or_eq_true_iff.mp h with h1 | h1
    · simp [h1]
    · have : p ∈ q :: fs := List.mem_cons_of_mem _ (of_decide_eq_true h1)
      simp [this]
  · exact h

theorem hasPath_renameApply {fs : List FsPath} {p src d : FsPath}
    (h : hasPath fs p = true) (hs : p ≠ src) (hd : p ≠ d) :
    hasPath (renameApply fs src d) p = true := by
  unfold hasPath at h ⊢
  rcases Bool.or_eq_true_iff.mp h with h1 | h1
  · simp [h1]
  · have hmem : p ∈ fs := of_decide_eq_true h1
    have : p ∈ renameApply fs src d := by
      unfold renameApply
      apply List.mem_cons_of_mem
      apply List.mem_filter.mpr
      refine ⟨hmem, ?_⟩
      simp [hs, hd]
    simp [this]

-- ----------------------------------------------------------------------
-- Claim C1
-- ----------------------------------------------------------------------

/-- Claim C1 (amended): for every `Move { src, dest }` handled by the
executor where a file already exists at `dest` and `dest`'s file name
equals `src`'s file name (which holds for every `Move` built by
`Task::parse`, since `parse` joins the destination directory with
`src`'s file name; a resolver may override `dest` arbitrarily, see the
counterexample), the executor never renames onto `dest`: the final
destination is `DumpFolder/file_name` or its timestamp-disambiguated
variant, both distinct from `dest`, and the occupant of `dest` is still
present afterwards. -/
theorem moveDest_collision_safe (fs : List FsPath) (dump src dest : FsPath)
    (ts : Str) (d : FsPath)
    (hdest : hasPath fs dest = true)
    (hfn : dest.fileName = src.fileName)
    (hmv : moveDest (hasPath fs) dump src dest ts = Except.ok d) :
    d ≠ dest ∧
    (∃ n, src.fileName = some n ∧
      (d = dump.pushC n ∨
        ∃ ext, (dump.pushC n).extension = some ext ∧
          d = (dump.pushC n).setExt (ext ++ '.' :: ts))) ∧
    (∀ fs2 m, src ≠ dest →
      handleMoveTask fs dump ts (QueueTaskM.move src dest) = Except.ok (fs2, m) →
      hasPath fs2 dest = true) := by
  unfold moveDest at hmv
  simp only [hdest, if_true] at hmv
  cases hsrcn : src.fileName with
  | none => rw [hsrcn] at hmv; simp at hmv
  | some n =>
    rw [hsrcn] at hmv
    simp only at hmv
    by_cases h1 : hasPath fs (dump.pushC n) = true
    · rw [h1] at hmv
      simp only [if_true] at hmv
      cases hext : (dump.pushC n).extension with
      | none => rw [hext] at hmv; simp at hmv
      | some ext =>
        rw [hext] at hmv
        simp only [Except.ok.injEq] at hmv
        have hd1 : d = (dump.pushC n).setExt (ext ++ '.' :: ts) := hmv.symm
        obtain ⟨n1, m, hn1, hm, hlen⟩ := setExt_ts_fileName hext ts
        have hne : d ≠ dest := by
          intro heq
          have hdf : d.fileName = some n := by rw [heq, hfn, hsrcn]
          rw [hd1] at hdf
          rw [hm] at hdf
          have hmn : m = n := by simpa using hdf
          by_cases hnn : n = []
          · rw [hnn] at hmn
            have : m.length = 0 := by rw [hmn]; rfl
            omega
          · have hp1 : (dump.pushC n).fileName = some n := pushC_fileName dump n hnn
            have : n1 = n := by rw [hp1] at hn1; simpa using hn1.symm
            rw [this, ← hmn] at hlen
            omega
        refine ⟨hne, ⟨n, rfl, Or.inr ⟨ext, hext, hd1⟩⟩, ?_⟩
        intro fs2 mm hsd hexec
        unfold handleMoveTask at hexec
        unfold moveDest at hexec
        simp only [hdest, if_true, hsrcn] at hexec
        simp only [h1, if_true, hext] at hexec
        rw [← hd1] at hexec
        split at hexec <;> split at hexec <;>
          simp only [Except.ok.injEq, Prod.mk.injEq] at hexec <;>
          rw [← hexec.1]
        · exact hasPath_renameApply (hasPath_createDir _ hdest) (Ne.symm hsd) (Ne.symm hne)
        · exact hasPath_createDir _ hdest
        · exact hasPath_renameApply hdest (Ne.symm hsd) (Ne.symm hne)
        · exact hdest
    · rw [Bool.not_eq_true] at h1
      rw [h1] at hmv
      simp only [Bool.false_eq_true, if_false, Except.ok.injEq] at hmv
      have hd1 : d = dump.pushC n := hmv.symm
      have hne : d ≠ dest := by
        intro heq
        rw [heq] at hd1
        rw [← hd1] at h1
        rw [hdest] at h1
        exact Bool.noConfusion h1
      refine ⟨hne, ⟨n, rfl, Or.inl hd1⟩, ?_⟩
      intro fs2 mm hsd hexec
      unfold handleMoveTask at hexec
      unfold moveDest at hexec
      simp only [hdest, if_true, hsrcn] at hexec
      simp only [h1, Bool.false_eq_true, if_false] at hexec
      rw [← hd1] at hexec
      split at hexec <;> split at hexec <;>
        simp only [Except.ok.injEq, Prod.mk.injEq] at hexec <;>
        rw [← hexec.1]
      · exact hasPath_renameApply (hasPath_createDir _ hdest) (Ne.symm hsd) (Ne.symm hne)
      · exact hasPath_createDir _ hdest
      · exact hasPath_renameApply hdest (Ne.symm hsd) (Ne.symm hne)
      · exact hdest

/-- Concrete instantiation of `moveDest_collision_safe`: a collision at
`w\a.z` is redirected to the dump folder `u\a.z`. -/
theorem moveDest_collision_safe_witness :
    (⟨[['u'], ['a', '.', 'z']]⟩ : FsPath) ≠ ⟨[['w'], ['a', '.', 'z']]⟩ ∧
    (∃ n, FsPath.fileName ⟨[['r'], ['a', '.', 'z']]⟩ = some n ∧
      ((⟨[['u'], ['a', '.', 'z']]⟩ : FsPath) = FsPath.pushC ⟨[['u']]⟩ n ∨
        ∃ ext, (FsPath.pushC ⟨[['u']]⟩ n).extension = some ext ∧
          (⟨[['u'], ['a', '.', 'z']]⟩ : FsPath) =
            (FsPath.pushC ⟨[['u']]⟩ n).setExt (ext ++ '.' :: ['9']))) ∧
    (∀ fs2 m, (⟨[['r'], ['a', '.', 'z']]⟩ : FsPath) ≠ ⟨[['w'], ['a', '.', 'z']]⟩ →
      handleMoveTask [⟨[['w'], ['a', '.', 'z']]⟩] ⟨[['u']]⟩ ['9']
          (QueueTaskM.move ⟨[['r'], ['a', '.', 'z']]⟩ ⟨[['w'], ['a', '.', 'z']]⟩) =
        Except.ok (fs2, m) →
      hasPath fs2 ⟨[['w'], ['a', '.', 'z']]⟩ = true) :=
  moveDest_collision_safe [⟨[['w'], ['a', '.', 'z']]⟩] ⟨[['u']]⟩
    ⟨[['r'], ['a', '.', 'z']]⟩ ⟨[['w'], ['a', '.', 'z']]⟩ ['9']
    ⟨[['u'], ['a', '.', 'z']]⟩ (by decide) (by decide) rfl

/-- Claim C1 as universally stated is false: a `Move` whose destination
(as a resolver may set it) is the dump-folder path `u\a.z.7` with
timestamp suffix equal to the current second makes the executor compute
exactly that occupied destination as its final rename target, so the
occupant of the primary destination is overwritten.  The last conjunct
shows `Task::parse` emits this very `Move` when a resolver overrides the
destination. -/
theorem moveDest_collision_counterexample :
    hasPath [⟨[['u'], ['a', '.', 'z', '.', '7']]⟩, ⟨[['u'], ['a', '.', 'z']]⟩]
        ⟨[['u'], ['a', '.', 'z', '.', '7']]⟩ = true ∧
    moveDest
        (hasPath [⟨[['u'], ['a', '.', 'z', '.', '7']]⟩, ⟨[['u'], ['a', '.', 'z']]⟩])
        ⟨[['u']]⟩ ⟨[['r'], ['a', '.', 'z']]⟩ ⟨[['u'], ['a', '.', 'z', '.', '7']]⟩ ['7'] =
      Except.ok ⟨[['u'], ['a', '.', 'z', '.', '7']]⟩ ∧
    TaskM.parse
        ⟨none, some (fun _ _ => ResolvedM.moveR ⟨[['u'], ['a', '.', 'z', '.', '7']]⟩)⟩
        (fun _ => true) false ⟨[['r'], ['a', '.', 'z']]⟩ ⟨[['w']]⟩ =
      Except.ok
        (QueueTaskM.move ⟨[['r'], ['a', '.', 'z']]⟩ ⟨[['u'], ['a', '.', 'z', '.', '7']]⟩) :=
  ⟨rfl, rfl, rfl⟩

-- ----------------------------------------------------------------------
-- Claim C3
-- ----------------------------------------------------------------------

/-- Claim C3 fails on the code: the timestamp has whole-second
granularity (`as_secs`) and the executor never re-checks existence after
appending it, so two colliding moves executed within the same wall-clock
second compute the identical disambiguated path `q\a.z.7` — the second
rename lands on a path that already exists after the first. -/
theorem timestamp_same_second_collision :
    moveDest
        (hasPath [⟨[['w'], ['a', '.', 'z']]⟩, ⟨[['q'], ['a', '.', 'z']]⟩,
          ⟨[['r'], ['a', '.', 'z']]⟩, ⟨[['s'], ['a', '.', 'z']]⟩, ⟨[['q']]⟩, ⟨[['w']]⟩])
        ⟨[['q']]⟩ ⟨[['r'], ['a', '.', 'z']]⟩ ⟨[['w'], ['a', '.', 'z']]⟩ ['7'] =
      Except.ok ⟨[['q'], ['a', '.', 'z', '.', '7']]⟩ ∧
    handleMoveTask
        [⟨[['w'], ['a', '.', 'z']]⟩, ⟨[['q'], ['a', '.', 'z']]⟩,
          ⟨[['r'], ['a', '.', 'z']]⟩, ⟨[['s'], ['a', '.', 'z']]⟩, ⟨[['q']]⟩, ⟨[['w']]⟩]
        ⟨[['q']]⟩ ['7'] (QueueTaskM.move ⟨[['r'], ['a', '.', 'z']]⟩ ⟨[['w'], ['a', '.', 'z']]⟩) =
      Except.ok
        ([⟨[['q'], ['a', '.', 'z', '.', '7']]⟩, ⟨[['w'], ['a', '.', 'z']]⟩,
            ⟨[['q'], ['a', '.', 'z']]⟩, ⟨[['s'], ['a', '.', 'z']]⟩, ⟨[['q']]⟩, ⟨[['w']]⟩],
          MsgM.textM 32 ['q', '\\', 'a', '.', 'z', '.', '7']) ∧
    moveDest
        (hasPath [⟨[['q'], ['a', '.', 'z', '.', '7']]⟩, ⟨[['w'], ['a', '.', 'z']]⟩,
          ⟨[['q'], ['a', '.', 'z']]⟩, ⟨[['s'], ['a', '.', 'z']]⟩, ⟨[['q']]⟩, ⟨[['w']]⟩])
        ⟨[['q']]⟩ ⟨[['s'], ['a', '.', 'z']]⟩ ⟨[['w'], ['a', '.', 'z']]⟩ ['7'] =
      Except.ok ⟨[['q'], ['a', '.', 'z', '.', '7']]⟩ ∧
    hasPath [⟨[['q'], ['a', '.', 'z', '.', '7']]⟩, ⟨[['w'], ['a', '.', 'z']]⟩,
        ⟨[['q'], ['a', '.', 'z']]⟩, ⟨[['s'], ['a', '.', 'z']]⟩, ⟨[['q']]⟩, ⟨[['w']]⟩]
      ⟨[['q'], ['a', '.', 'z', '.', '7']]⟩ = true :=
  ⟨rfl, rfl, rfl, rfl⟩

-- ----------------------------------------------------------------------
-- Claim C4
-- ----------------------------------------------------------------------

/-- Claim C4: `Task::parse` never emits a `Move` whose source equals its
destination (the self-move comparison returns the no-op task instead),
and the executor is an identity on the filesystem for a no-op task,
reporting nothing. -/
theorem parse_self_move_noop (t : TaskM) (has : FsPath → Bool) (w : Bool)
    (src dest0 : FsPath) :
    (∀ s d, TaskM.parse t has w src dest0 = Except.ok (QueueTaskM.move s d) → s ≠ d) ∧
    (∀ a, finishMove a a = Except.ok QueueTaskM.noneQ) ∧
    (∀ fs dump ts, handleMoveTask fs dump ts QueueTaskM.noneQ =
      Except.ok (fs, MsgM.noneM)) := by
  have hfin : ∀ (a b s d : FsPath),
      finishMove a b = Except.ok (QueueTaskM.move s d) → s ≠ d := by
    intro a b s d h
    unfold finishMove at h
    split at h
    · simp at h
    · split at h
      · rename_i hab _
        simp only [Except.ok.injEq, QueueTaskM.move.injEq] at h
        rw [← h.1, ← h.2]
        exact hab
      · simp at h
  constructor
  · intro s d h
    unfold TaskM.parse at h
    split at h
    · simp at h
    · split at h
      · simp at h
      · split at h
        · simp at h
        · dsimp only at h
          split at h
          · -- resolver verdict was terminal: only non-move tasks arise
            rename_i q heq
            split at heq
            · simp at heq
            · split at heq <;> simp_all
          · -- the computed (or overridden) destination reaches finishMove
            exact hfin _ _ _ _ h
  constructor
  · intro a
    simp [finishMove]
  · intro fs dump ts
    rfl

/-- Concrete instantiation of `parse_self_move_noop`: a `Move` produced
by `parse` for source `r\f` and task directory `w` has distinct
endpoints, and the executor leaves the (empty) filesystem untouched on a
no-op task. -/
theorem parse_self_move_noop_witness :
    (⟨[['r'], ['f']]⟩ : FsPath) ≠ ⟨[['w'], ['f']]⟩ ∧
    finishMove ⟨[['r'], ['f']]⟩ ⟨[['r'], ['f']]⟩ = Except.ok QueueTaskM.noneQ ∧
    handleMoveTask [] ⟨[['u']]⟩ ['1'] QueueTaskM.noneQ =
      Except.ok ([], MsgM.noneM) :=
  ⟨(parse_self_move_noop ⟨none, none⟩ (fun _ => true) false
      ⟨[['r'], ['f']]⟩ ⟨[['w']]⟩).1 ⟨[['r'], ['f']]⟩ ⟨[['w'], ['f']]⟩ rfl,
   (parse_self_move_noop ⟨none, none⟩ (fun _ => true) false
      ⟨[['r'], ['f']]⟩ ⟨[['w']]⟩).2.1 ⟨[['r'], ['f']]⟩,
   (parse_self_move_noop ⟨none, none⟩ (fun _ => true) false
      ⟨[['r'], ['f']]⟩ ⟨[['w']]⟩).2.2 [] ⟨[['u']]⟩ ['1']⟩

-- ----------------------------------------------------------------------
-- Claim C5
-- ----------------------------------------------------------------------

/-- Claim C5 fails on the code: `Watch::new` guards `create_dir_all`
with `try_exists().is_err()`, but an absent dump folder yields
`Ok(false)`, which is not an error, so the folder is not created and
does not exist after construction. -/
theorem watchNew_dump_absent_not_created :
    watchNewCreatesDump TryExistsResult.okFalse = false ∧
    dumpExistsAfterNew TryExistsResult.okFalse = false := by
  decide

-- ----------------------------------------------------------------------
-- Claim C6
-- ----------------------------------------------------------------------

/-- Claim C6 fails on the code: a `PathNotFound` from `watch_one` is only
printed inside the watcher thread closure; `start()` does not return —
the failed thread never sets its ready flag, so the polling loop never
breaks. -/
theorem start_pathNotFound_counterexample :
    startReturn [SetupOutcome.failPathNotFound] = none ∧
    threadReaction SetupOutcome.failPathNotFound = ThreadReaction.logsNotFound :=
  ⟨rfl, rfl⟩

/-- Claim C6 (amended): `start()` never returns an error value — its only
return expression is `Ok(())`; when any per-root setup fails with
`PathNotFound` the thread closure merely logs a `Notfound` line and
`start()` does not return at all (the ready loop waits forever on the
failed watcher's flag). -/
theorem start_never_returns_error (outcomes : List SetupOutcome) (e : SetupOutcome) :
    startReturn outcomes ≠ some (Except.error e) ∧
    (SetupOutcome.failPathNotFound ∈ outcomes →
      startReturn outcomes = none ∧
      threadReaction SetupOutcome.failPathNotFound = ThreadReaction.logsNotFound) := by
  constructor
  · unfold startReturn
    split <;> simp
  · intro hmem
    refine ⟨?_, rfl⟩
    unfold startReturn
    have hb : readyLoopBreaks outcomes = false := by
      unfold readyLoopBreaks
      by_contra hh
      rw [Bool.not_eq_false] at hh
      have := List.all_eq_true.mp hh _ hmem
      simp [readyFlagSet] at this
    rw [hb]
    simp

/-- Concrete instantiation of `start_never_returns_error` at a single
root whose setup fails with `PathNotFound`. -/
theorem start_never_returns_error_witness :
    startReturn [SetupOutcome.failPathNotFound, SetupOutcome.ready] = none ∧
    threadReaction SetupOutcome.failPathNotFound = ThreadReaction.logsNotFound :=
  (start_never_returns_error [SetupOutcome.failPathNotFound, SetupOutcome.ready]
    SetupOutcome.failOther).2 (by decide)

-- ----------------------------------------------------------------------
-- Claim C7
-- ----------------------------------------------------------------------

/-- Claim C7 fails on the code: the executor calls the non-recursive
`fs::create_dir` (not `create_dir_all`).  With destination
`a\b\f.t` and no existing `a`, the directory step creates nothing (the
parent `a\b` still does not exist afterwards) and the rename fails with
an `Err` report. -/
theorem createDir_not_recursive_counterexample :
    handleMoveTask [⟨[['s'], ['f']]⟩, ⟨[['s']]⟩] ⟨[['u']]⟩ ['1']
        (QueueTaskM.move ⟨[['s'], ['f']]⟩ ⟨[['a'], ['b'], ['f', '.', 't']]⟩) =
      Except.ok ([⟨[['s'], ['f']]⟩, ⟨[['s']]⟩], MsgM.textM 31 ['s', '\\', 'f']) ∧
    hasPath [⟨[['s'], ['f']]⟩, ⟨[['s']]⟩]
      (FsPath.popP ⟨[['a'], ['b'], ['f', '.', 't']]⟩) = false :=
  ⟨rfl, rfl⟩

/-- Claim C7 (amended): before the rename the executor attempts to create
only the immediate parent of the final destination, non-recursively and
with the result ignored: the step is a no-op when the parent already
exists (idempotent in effect), it creates the parent exactly when the
parent's own parent exists, and it creates nothing when a deeper
ancestor is missing. -/
theorem createDir_parent_step (fs : List FsPath) (d : FsPath) :
    (hasPath fs d.popP = true → createDir fs d.popP = fs) ∧
    (hasPath fs d.popP = false → hasPath fs d.popP.popP = true →
      createDir fs d.popP = d.popP :: fs) ∧
    (hasPath fs d.popP.popP = false → createDir fs d.popP = fs) := by
  refine ⟨?_, ?_, ?_⟩
  · intro h
    unfold createDir
    rw [if_neg]
    simp [h]
  · intro h1 h2
    unfold createDir
    rw [if_pos]
    simp [h1, h2]
  · intro h
    unfold createDir
    rw [if_neg]
    simp [h]

/-- Concrete instantiation of `createDir_parent_step`: with only `x`
existing, the parent `x\y` of destination `x\y\z` is created by the
single-level step. -/
theorem createDir_parent_step_witness :
    createDir [⟨[['x']]⟩] (FsPath.popP ⟨[['x'], ['y'], ['z']]⟩) =
      FsPath.popP ⟨[['x'], ['y'], ['z']]⟩ :: [⟨[['x']]⟩] :=
  (createDir_parent_step [⟨[['x']]⟩] ⟨[['x'], ['y'], ['z']]⟩).2.1
    (by decide) (by decide)

-- ----------------------------------------------------------------------
-- Claim C8
-- ----------------------------------------------------------------------

theorem getWithKey_not_found {K V : Type} [DecidableEq K] (k : K) :
    ∀ (L : List (K × V)), (∀ p ∈ L, p.1 ≠ k) → getWithKey L k = (none, L) := by
  intro L
  induction L with
  | nil => intro _; rfl
  | cons a L ih =>
    intro hL
    obtain ⟨a1, a2⟩ := a
    have h1 : a1 ≠ k := hL (a1, a2) (by simp)
    have h2 := ih (fun p hp => hL p (List.mem_cons_of_mem _ hp))
    simp [getWithKey, h1, h2]

/-- Claim C8: a lookup that finds a buffered entry also removes it (the
first entry with the looked-up stem is deleted from the buffer), so the
entry is consulted at most once — when it was the only entry for that
stem, an immediately repeated lookup returns nothing. -/
theorem getWithKey_one_shot {K V : Type} [DecidableEq K] (A B : List (K × V))
    (k : K) (v : V) (hA : ∀ p ∈ A, p.1 ≠ k) :
    getWithKey (A ++ (k, v) :: B) k = (some v, A ++ B) ∧
    ((∀ p ∈ B, p.1 ≠ k) → getWithKey (A ++ B) k = (none, A ++ B)) := by
  constructor
  · induction A with
    | nil => simp [getWithKey]
    | cons a A ih =>
      obtain ⟨a1, a2⟩ := a
      have h1 : a1 ≠ k := hA (a1, a2) (by simp)
      have h2 := ih (fun p hp => hA p (List.mem_cons_of_mem _ hp))
      simp [getWithKey, h1, h2]
  · intro hB
    apply getWithKey_not_found
    intro p hp
    rcases List.mem_append.mp hp with hp | hp
    · exact hA p hp
    · exact hB p hp

/-- The event kinds buffered by the watcher (stands in for
`notify::EventKind` in witnesses). -/
inductive EKind where
  | createE
  | modifyE
  | removeE
deriving DecidableEq

/-- Concrete instantiation of `getWithKey_one_shot`: looking up stem `a`
returns and removes its entry; the repeated lookup returns nothing. -/
theorem getWithKey_one_shot_witness :
    getWithKey [(['b'], EKind.modifyE), (['a'], EKind.createE)] ['a'] =
      (some EKind.createE, [(['b'], EKind.modifyE)]) ∧
    getWithKey [(['b'], EKind.modifyE)] ['a'] =
      (none, [(['b'], EKind.modifyE)]) :=
  have h := getWithKey_one_shot [(['b'], EKind.modifyE)] []
    ['a'] EKind.createE (by decide)
  ⟨h.1, h.2 (by decide)⟩

-- ----------------------------------------------------------------------
-- Claim C9
-- ----------------------------------------------------------------------

/-- Claim C9: on any target other than Windows, `Ruleset::add` panics
for every task with a destination set — with `unimplemented!()` whenever
the task is otherwise well-formed (its event predicate is set) — so only
tasks without a destination, which inherit the watched root, are ever
added. -/
theorem rulesetAdd_nonWindows_dest (wp : FsPath) (t : TaskC) :
    (t.destination.isSome = true → ∀ d, rulesetAdd false wp t ≠ AddOutcome.added d) ∧
    (t.destination.isSome = true → t.eventCheckSet = true →
      rulesetAdd false wp t = AddOutcome.panicUnimplemented) ∧
    (∀ d, rulesetAdd false wp t = AddOutcome.added d →
      t.destination = none ∧ d = wp) := by
  obtain ⟨lab, ev, dst⟩ := t
  cases ev <;> cases dst <;> cases lab <;>
    simp [rulesetAdd] <;> intro d h <;> simp_all

/-- Concrete instantiation of `rulesetAdd_nonWindows_dest`: a labelled
task with predicate and destination set hits `unimplemented!()` off
Windows. -/
theorem rulesetAdd_nonWindows_dest_witness :
    rulesetAdd false ⟨[['w']]⟩ ⟨some ['l'], true, some ['d']⟩ =
      AddOutcome.panicUnimplemented :=
  (rulesetAdd_nonWindows_dest ⟨[['w']]⟩ ⟨some ['l'], true, some ['d']⟩).2.1
    (by decide) (by decide)

-- ----------------------------------------------------------------------
-- Claim C10
-- ----------------------------------------------------------------------

/-- Claim C10: when the dump-redirected destination still exists and its
file name carries no extension, the executor reaches
`extension().unwrap()` on `None` and panics instead of producing a
disambiguated path or an `Err` report. -/
theorem handleMoveTask_no_ext_panics (fs : List FsPath) (dump src dest : FsPath)
    (ts : Str) (n : Str)
    (hdest : hasPath fs dest = true)
    (hn : src.fileName = some n)
    (h1 : hasPath fs (dump.pushC n) = true)
    (hext : (dump.pushC n).extension = none) :
    handleMoveTask fs dump ts (QueueTaskM.move src dest) =
      Except.error RPanic.unwrapExtension := by
  unfold handleMoveTask
  unfold moveDest
  simp only [hdest, if_true, hn, h1, hext]

/-- Concrete instantiation of `handleMoveTask_no_ext_panics`: the
colliding file `R` has no extension, so the executor panics. -/
theorem handleMoveTask_no_ext_panics_witness :
    handleMoveTask [⟨[['w'], ['R']]⟩, ⟨[['u'], ['R']]⟩] ⟨[['u']]⟩ ['2']
        (QueueTaskM.move ⟨[['s'], ['R']]⟩ ⟨[['w'], ['R']]⟩) =
      Except.error RPanic.unwrapExtension :=
  handleMoveTask_no_ext_panics [⟨[['w'], ['R']]⟩, ⟨[['u'], ['R']]⟩] ⟨[['u']]⟩
    ⟨[['s'], ['R']]⟩ ⟨[['w'], ['R']]⟩ ['2'] ['R']
    (by decide) (by decide) (by decide) (by decide)

end SomeWatcher
